import Mathlib

/-!
Verification of the ring-buffer FIFO queue from `Queue.go`
(package DataStructures).

The Go struct `Queue` holds a slice `buffer []interface{}` together with
`head`, `tail` and `length` fields.  We embed it shallowly: the slice
becomes a `List (Option α)` where `none` plays the role of the Go `nil`
interface value (both for empty slots and for a user-pushed `nil`), and
the `int` fields become `Nat` (all reachable values are non-negative).
Fallible reads use `List.getD`; on every reachable state the indices are
in bounds, so this agrees with the Go indexing.
-/

namespace RingQueue

/-- The Go struct `Queue`: a buffer of `interface{}` cells plus head,
tail and length bookkeeping. -/
structure Queue (α : Type) where
  buffer : List (Option α)
  head : Nat
  tail : Nat
  length : Nat
deriving DecidableEq

variable {α : Type}

/-- `nextpos` from the source: `(i + 1) & (len(q.buffer) - 1)`. -/
def Queue.nextpos (q : Queue α) (i : Nat) : Nat :=
  (i + 1) &&& (q.buffer.length - 1)

/-- `init` from the source: a one-slot zeroed buffer and zeroed indices.
(The receiver is ignored because `init` overwrites every field.) -/
def Queue.init (_q : Queue α) : Queue α :=
  { buffer := List.replicate 1 none, head := 0, tail := 0, length := 0 }

/-- `NewQueue` from the source: allocate a zero-valued struct, `init` it. -/
def NewQueue : Queue α :=
  Queue.init { buffer := [], head := 0, tail := 0, length := 0 }

/-- Go's builtin `copy(dst, src)`: copies `min (len dst) (len src)`
elements of `src` over the front of `dst`, keeping the rest of `dst`. -/
def goCopy (dst src : List β) : List β :=
  src.take (min dst.length src.length) ++ dst.drop (min dst.length src.length)

/-- `resize` from the source: bump an odd target size to even, allocate a
fresh zeroed buffer, relinearize (one `copy` if the live range is
contiguous, two if it wraps), and reset `head := 0`, `tail := length`. -/
def Queue.resize (q : Queue α) (size : Nat) : Queue α :=
  let size := if size % 2 ≠ 0 then size + 1 else size
  let newbuffer :=
    if q.head < q.tail then
      goCopy (List.replicate size none) ((q.buffer.drop q.head).take (q.tail - q.head))
    else
      let nb1 := goCopy (List.replicate size (none : Option α)) (q.buffer.drop q.head)
      let n := min (List.replicate size (none : Option α)).length (q.buffer.drop q.head).length
      nb1.take n ++ goCopy (nb1.drop n) (q.buffer.take q.tail)
  { buffer := newbuffer, head := 0, tail := q.length, length := q.length }

/-- `grow` from the source: resize to double the buffer length. -/
def Queue.grow (q : Queue α) : Queue α :=
  q.resize (q.buffer.length * 2)

/-- `shrink` from the source: resize to half the buffer length. -/
def Queue.shrink (q : Queue α) : Queue α :=
  q.resize (q.buffer.length / 2)

/-- `excessCapacity` from the source:
`q.length > 0 && q.length < len(q.buffer)/4`. -/
def Queue.excessCapacity (q : Queue α) : Bool :=
  decide (0 < q.length) && decide (q.length < q.buffer.length / 4)

/-- `Push` from the source: lazily `init` a nil buffer, `grow` when full,
write at `tail`, advance `tail`, increment `length`. -/
def Queue.Push (q : Queue α) (entry : Option α) : Queue α :=
  let q := if q.buffer.isEmpty then q.init else q
  let q := if q.length = q.buffer.length then q.grow else q
  { q with buffer := q.buffer.set q.tail entry,
           tail := q.nextpos q.tail,
           length := q.length + 1 }

/-- `Pop` from the source: return `nil` on an empty queue, otherwise read
the head slot, clear it, advance `head`, decrement `length`, and `shrink`
when `excessCapacity` holds.  The Go method returns the value and mutates
the receiver; we return both. -/
def Queue.Pop (q : Queue α) : Option α × Queue α :=
  if q.length = 0 then (none, q)
  else
    let retVal := q.buffer.getD q.head none
    let q1 : Queue α :=
      { q with buffer := q.buffer.set q.head none,
               head := q.nextpos q.head,
               length := q.length - 1 }
    (retVal, if q1.excessCapacity then q1.shrink else q1)

/-- `Peek` from the source: read `q.buffer[q.head]` with no emptiness
check. -/
def Queue.Peek (q : Queue α) : Option α :=
  q.buffer.getD q.head none

/-- `Length` from the source. -/
def Queue.Length (q : Queue α) : Nat :=
  q.length

/-- `Clear` from the source: call `init`. -/
def Queue.Clear (q : Queue α) : Queue α :=
  q.init

/-- Rendering of one buffer cell, the analogue of `fmt.Sprintf("%v", c)`:
a Go nil interface prints as `"<nil>"`, other values print via `f`. -/
def cellStr (f : α → String) : Option α → String
  | none => "<nil>"
  | some a => f a

/-- The loop body of the source's `String` method: starting at buffer
index `j` with `i` entries left to print, write the cell at `j`, write
`" | "` unless this is the last entry, and continue at `nextpos j`. -/
def Queue.stringAux (f : α → String) (q : Queue α) : Nat → Nat → String
  | _, 0 => ""
  | j, i + 1 =>
    cellStr f (q.buffer.getD j none) ++
      (if 0 < i then " | " else "") ++ q.stringAux f (q.nextpos j) i

/-- `String` from the source: render the `length` live entries starting
at `head`. -/
def Queue.toString (f : α → String) (q : Queue α) : String :=
  q.stringAux f q.head q.length

/-- The buffer relinearized so that position 0 is buffer index `head`. -/
def Queue.lin (q : Queue α) : List (Option α) :=
  q.buffer.drop q.head ++ q.buffer.take q.head

/-- The live contents of the queue in FIFO order (oldest first). -/
def Queue.model (q : Queue α) : List (Option α) :=
  q.lin.take q.length

/-- The state invariant maintained by every queue operation. -/
structure Inv (q : Queue α) : Prop where
  pow : ∃ k, q.buffer.length = 2 ^ k
  head_lt : q.head < q.buffer.length
  tail_lt : q.tail < q.buffer.length
  len_le : q.length ≤ q.buffer.length
  tail_eq : q.tail = (q.head + q.length) % q.buffer.length
  dead : q.lin.drop q.length = List.replicate (q.buffer.length - q.length) none

/-- One public mutating operation of the queue API. -/
inductive Op (α : Type) where
  | push : Option α → Op α
  | pop : Op α
  | clear : Op α

/-- The queue states reachable from `NewQueue` through the public API. -/
inductive Reachable : Queue α → Prop where
  | init : Reachable NewQueue
  | push (v : Option α) {q : Queue α} : Reachable q → Reachable (q.Push v)
  | pop {q : Queue α} : Reachable q → Reachable q.Pop.2
  | clear {q : Queue α} : Reachable q → Reachable q.Clear

/-- Reference model, from the spec: an unbounded list-based FIFO.
Push appends at the back. -/
def modelPush (l : List (Option α)) (v : Option α) : List (Option α) :=
  l ++ [v]

/-- Reference model, from the spec: pop removes at the front, yielding
absence on an empty queue. -/
def modelPop : List (Option α) → Option α × List (Option α)
  | [] => (none, [])
  | x :: xs => (x, xs)

/-- Observable trace of the queue code: for each operation, the value a
pop returned (wrapped in `some`) and the length afterwards. -/
def obsQ (q : Queue α) : List (Op α) → List (Option (Option α) × Nat)
  | [] => []
  | op :: ops =>
    match op with
    | .push v => (none, (q.Push v).Length) :: obsQ (q.Push v) ops
    | .pop => (some q.Pop.1, q.Pop.2.Length) :: obsQ q.Pop.2 ops
    | .clear => (none, q.Clear.Length) :: obsQ q.Clear ops

/-- Observable trace of the reference FIFO model. -/
def obsM (l : List (Option α)) : List (Op α) → List (Option (Option α) × Nat)
  | [] => []
  | op :: ops =>
    match op with
    | .push v => (none, (modelPush l v).length) :: obsM (modelPush l v) ops
    | .pop => (some (modelPop l).1, (modelPop l).2.length) :: obsM (modelPop l).2 ops
    | .clear => (none, (0 : Nat)) :: obsM [] ops

/-- Push a whole list of values, oldest first. -/
def pushAll (q : Queue α) (vs : List (Option α)) : Queue α :=
  vs.foldl Queue.Push q

/-- Pop `n` times, collecting the returned values in order. -/
def popN (q : Queue α) : Nat → List (Option α) × Queue α
  | 0 => ([], q)
  | n + 1 =>
    let p := q.Pop
    let r := popN p.2 n
    (p.1 :: r.1, r.2)

/-- Join a list of rendered entries with the literal `" | "` delimiter,
with no leading or trailing delimiter. -/
def sepBy : List String → String
  | [] => ""
  | [s] => s
  | s :: s2 :: rest => s ++ " | " ++ sepBy (s2 :: rest)

/-- The cells visited by the `String` loop: `m` buffer reads starting at
index `j`, stepping with `nextpos`. -/
def cells (q : Queue α) : Nat → Nat → List (Option α)
  | _, 0 => []
  | j, m + 1 => q.buffer.getD j none :: cells q (q.nextpos j) m

theorem Inv.cap_pos {q : Queue α} (h : Inv q) : 0 < q.buffer.length := by
  obtain ⟨k, hk⟩ := h.pow
  rw [hk]
  exact Nat.pos_pow_of_pos k (by omega)

theorem lin_length {q : Queue α} (h : q.head ≤ q.buffer.length) :
    q.lin.length = q.buffer.length := by
  simp only [Queue.lin, List.length_append, List.length_drop, List.length_take]
  omega

theorem Inv.model_length {q : Queue α} (h : Inv q) : q.model.length = q.length := by
  have := h.len_le
  simp only [Queue.model, List.length_take, lin_length (Nat.le_of_lt h.head_lt)]
  omega

theorem Inv.lin_eq {q : Queue α} (h : Inv q) :
    q.lin = q.model ++ List.replicate (q.buffer.length - q.length) none := by
  rw [Queue.model, ← h.dead, List.take_append_drop]

theorem nextpos_eq {q : Queue α} (h : Inv q) (i : Nat) :
    q.nextpos i = (i + 1) % q.buffer.length := by
  obtain ⟨k, hk⟩ := h.pow
  rw [Queue.nextpos, hk, Nat.and_pow_two_sub_one_eq_mod]

/-- In the contiguous branch of `resize` the live range does not wrap. -/
theorem no_wrap {q : Queue α} (hInv : Inv q) (h : q.head < q.tail) :
    q.tail = q.head + q.length ∧ q.head + q.length < q.buffer.length := by
  have ht := hInv.tail_eq
  have h1 := hInv.head_lt
  have h2 := hInv.tail_lt
  have h3 := hInv.len_le
  rcases Nat.lt_or_ge (q.head + q.length) q.buffer.length with h4 | h4
  · rw [Nat.mod_eq_of_lt h4] at ht
    omega
  · rw [Nat.mod_eq_sub_mod h4, Nat.mod_eq_of_lt (by omega)] at ht
    omega

/-- In the two-copy branch of `resize` (reached only with a nonempty
queue) the live range wraps around the end of the buffer. -/
theorem wrap {q : Queue α} (hInv : Inv q) (hpos : 0 < q.length)
    (h : ¬ q.head < q.tail) :
    q.tail + q.buffer.length = q.head + q.length := by
  have ht := hInv.tail_eq
  have h1 := hInv.head_lt
  have h2 := hInv.tail_lt
  have h3 := hInv.len_le
  rcases Nat.lt_or_ge (q.head + q.length) q.buffer.length with h4 | h4
  · rw [Nat.mod_eq_of_lt h4] at ht
    omega
  · rw [Nat.mod_eq_sub_mod h4, Nat.mod_eq_of_lt (by omega)] at ht
    omega

/-- What `resize` computes at both of its call sites: the new buffer is
the relinearized live contents padded with `nil` up to `size`. -/
theorem resize_spec {q : Queue α} (hInv : Inv q) {size : Nat}
    (hpos : 0 < q.length) (hle : q.length ≤ size) (heven : size % 2 = 0) :
    q.resize size =
      { buffer := q.model ++ List.replicate (size - q.length) none,
        head := 0, tail := q.length, length := q.length } := by
  have hC : 0 < q.buffer.length := hInv.cap_pos
  have hh := hInv.head_lt
  have htl := hInv.tail_lt
  have hlen := hInv.len_le
  simp only [Queue.resize]
  rw [if_neg (show ¬ size % 2 ≠ 0 by omega)]
  simp only [Queue.mk.injEq, and_true]
  by_cases hbr : q.head < q.tail
  · rw [if_pos hbr]
    obtain ⟨ht1, ht2⟩ := no_wrap hInv hbr
    have hsrclen : ((q.buffer.drop q.head).take (q.tail - q.head)).length = q.length := by
      simp only [List.length_take, List.length_drop]
      omega
    rw [goCopy, List.length_replicate, hsrclen,
      Nat.min_eq_right (by omega), List.take_of_length_le (Nat.le_of_eq hsrclen),
      List.drop_replicate]
    congr 1
    rw [Queue.model, Queue.lin,
      List.take_append_of_le_length (by rw [List.length_drop]; omega)]
    congr 1
    omega
  · rw [if_neg hbr]
    have hw := wrap hInv hpos hbr
    have hd1 : (q.buffer.drop q.head).length = q.buffer.length - q.head := by
      rw [List.length_drop]
    have hmin1 : min (List.replicate size (none : Option α)).length
        (q.buffer.drop q.head).length = q.buffer.length - q.head := by
      rw [List.length_replicate, hd1]
      omega
    have hd2 : (q.buffer.take q.tail).length = q.tail := by
      rw [List.length_take]
      omega
    -- the first copy moves the whole head-to-end segment
    have e1 : goCopy (List.replicate size (none : Option α)) (q.buffer.drop q.head)
        = q.buffer.drop q.head
            ++ List.replicate (size - (q.buffer.length - q.head)) none := by
      rw [goCopy, hmin1,
        @List.take_of_length_le _ _ (q.buffer.drop q.head) (Nat.le_of_eq hd1),
        List.drop_replicate]
    have hmin2 : min (List.replicate (size - (q.buffer.length - q.head))
        (none : Option α)).length (q.buffer.take q.tail).length = q.tail := by
      rw [List.length_replicate, hd2]
      omega
    -- the second copy moves the whole start-to-tail segment
    have e2 : goCopy (List.replicate (size - (q.buffer.length - q.head))
          (none : Option α)) (q.buffer.take q.tail)
        = q.buffer.take q.tail ++ List.replicate (size - q.length) none := by
      rw [goCopy, hmin2,
        @List.take_of_length_le _ _ (q.buffer.take q.tail) (Nat.le_of_eq hd2),
        List.drop_replicate]
      congr 2
      omega
    -- the relinearized live contents are the two segments in order
    have hmodel : q.model = q.buffer.drop q.head ++ q.buffer.take q.tail := by
      rw [Queue.model, Queue.lin, List.take_append_eq_append_take,
        @List.take_of_length_le _ q.length (q.buffer.drop q.head)
          (by rw [List.length_drop]; omega),
        List.take_take, List.length_drop]
      have h5 : q.length - (q.buffer.length - q.head) = q.tail := by omega
      have h6 : min (q.length - (q.buffer.length - q.head)) q.head = q.tail := by
        omega
      rw [h6]
    rw [hmin1, e1, List.take_left' hd1, List.drop_left' hd1, e2, hmodel,
      List.append_assoc]

/-- A queue whose buffer is its live contents followed by `nil` padding,
with `head = 0`, satisfies the invariant. -/
theorem norm_queue_inv {l : List (Option α)} {n size : Nat} (hl : l.length = n)
    (hlt : n < size) (hp : ∃ k, size = 2 ^ k) :
    Inv (Queue.mk (l ++ List.replicate (size - n) none) 0 n n)
      ∧ (Queue.mk (l ++ List.replicate (size - n) none) 0 n n).model = l
      ∧ (Queue.mk (l ++ List.replicate (size - n) none) 0 n n).buffer.length = size := by
  have hbl : (l ++ List.replicate (size - n) (none : Option α)).length = size := by
    rw [List.length_append, hl, List.length_replicate]
    omega
  have hlin : (Queue.mk (l ++ List.replicate (size - n) none) 0 n n : Queue α).lin
      = l ++ List.replicate (size - n) none := by
    simp [Queue.lin]
  have hdead : (l ++ List.replicate (size - n) (none : Option α)).drop n
      = List.replicate (size - n) none := by
    rw [List.drop_append_eq_append_drop, List.drop_of_length_le (Nat.le_of_eq hl),
      hl, Nat.sub_self, List.drop_zero, List.nil_append]
  obtain ⟨k, hk⟩ := hp
  refine ⟨⟨⟨k, ?_⟩, ?_, ?_, ?_, ?_, ?_⟩, ?_, hbl⟩
  · show (l ++ List.replicate (size - n) (none : Option α)).length = 2 ^ k
    rw [hbl, hk]
  · show 0 < (l ++ List.replicate (size - n) (none : Option α)).length
    rw [hbl]
    omega
  · show n < (l ++ List.replicate (size - n) (none : Option α)).length
    rw [hbl]
    exact hlt
  · show n ≤ (l ++ List.replicate (size - n) (none : Option α)).length
    rw [hbl]
    omega
  · show n = (0 + n) % (l ++ List.replicate (size - n) (none : Option α)).length
    rw [hbl, Nat.zero_add, Nat.mod_eq_of_lt hlt]
  · show (Queue.mk (l ++ List.replicate (size - n) none) 0 n n : Queue α).lin.drop n
      = List.replicate ((l ++ List.replicate (size - n) (none : Option α)).length - n) none
    rw [hlin, hdead, hbl]
  · show (Queue.mk (l ++ List.replicate (size - n) none) 0 n n : Queue α).model = l
    simp only [Queue.model]
    rw [hlin]
    exact List.take_left' hl

/-- `resize`, called on a nonempty invariant-satisfying queue with an even
power-of-two target strictly above the length, reestablishes the
invariant, preserves the contents, and hits the target capacity. -/
theorem resize_norm {q : Queue α} (hInv : Inv q) {size : Nat}
    (hpos : 0 < q.length) (hlt : q.length < size) (heven : size % 2 = 0)
    (hp : ∃ k, size = 2 ^ k) :
    Inv (q.resize size) ∧ (q.resize size).model = q.model
      ∧ (q.resize size).buffer.length = size
      ∧ (q.resize size).length = q.length := by
  rw [resize_spec hInv hpos (Nat.le_of_lt hlt) heven]
  obtain ⟨h1, h2, h3⟩ := norm_queue_inv hInv.model_length hlt hp
  exact ⟨h1, h2, h3, rfl⟩

theorem inv_new : Inv (NewQueue : Queue α) :=
  ⟨⟨0, rfl⟩, Nat.zero_lt_one, Nat.zero_lt_one, Nat.zero_le _, rfl, rfl⟩

theorem model_new : (NewQueue : Queue α).model = [] := rfl

/-- `Clear` literally reconstructs the initial state. -/
theorem clear_eq (q : Queue α) : q.Clear = NewQueue := rfl

/-- The unguarded write step at the end of `Push`, on a non-full queue:
it appends `v` to the live contents and keeps the invariant. -/
theorem write_spec {q : Queue α} (hInv : Inv q)
    (hlt : q.length < q.buffer.length) (v : Option α) :
    Inv (Queue.mk (q.buffer.set q.tail v) q.head (q.nextpos q.tail) (q.length + 1))
      ∧ (Queue.mk (q.buffer.set q.tail v) q.head (q.nextpos q.tail)
          (q.length + 1)).model = q.model ++ [v] := by
  have hC := hInv.cap_pos
  have hh := hInv.head_lt
  have htl := hInv.tail_lt
  have hml := hInv.model_length
  have key : (q.buffer.set q.tail v).drop q.head ++ (q.buffer.set q.tail v).take q.head
      = q.lin.set q.length v := by
    rcases Nat.lt_or_ge (q.head + q.length) q.buffer.length with hA | hB
    · have ht : q.tail = q.head + q.length := by
        rw [hInv.tail_eq, Nat.mod_eq_of_lt hA]
      have e1 : (q.buffer.set q.tail v).drop q.head
          = (q.buffer.drop q.head).set q.length v := by
        rw [List.drop_set, if_neg (by omega)]
        congr 1
        omega
      have e2 : (q.buffer.set q.tail v).take q.head = q.buffer.take q.head := by
        rw [List.set_eq_take_cons_drop v (show q.tail < q.buffer.length by omega),
          List.take_append_eq_append_take, List.take_take, List.length_take]
        have h1 : min q.head q.tail = q.head := by omega
        have h2 : min q.tail q.buffer.length = q.tail := by omega
        rw [h1, h2, show q.head - q.tail = 0 from by omega, List.take_zero,
          List.append_nil]
      rw [e1, e2]
      simp only [Queue.lin]
      rw [List.set_append, if_pos (by rw [List.length_drop]; omega)]
    · have ht : q.tail + q.buffer.length = q.head + q.length := by
        rw [hInv.tail_eq, Nat.mod_eq_sub_mod hB, Nat.mod_eq_of_lt (by omega)]
        omega
      have htlh : q.tail < q.head := by omega
      have e1 : (q.buffer.set q.tail v).drop q.head = q.buffer.drop q.head := by
        rw [List.drop_set, if_pos htlh]
      have e2a : (q.buffer.set q.tail v).take q.head
          = q.buffer.take q.tail
            ++ v :: (q.buffer.drop (q.tail + 1)).take (q.head - (q.tail + 1)) := by
        rw [List.set_eq_take_cons_drop v (show q.tail < q.buffer.length by omega),
          List.take_append_eq_append_take, List.take_take, List.length_take]
        have h1 : min q.head q.tail = q.tail := by omega
        have h2 : min q.tail q.buffer.length = q.tail := by omega
        rw [h1, h2, show q.head - q.tail = (q.head - (q.tail + 1)) + 1 from by omega,
          List.take_succ_cons]
      have e2b : (q.buffer.take q.head).set q.tail v
          = q.buffer.take q.tail
            ++ v :: (q.buffer.drop (q.tail + 1)).take (q.head - (q.tail + 1)) := by
        rw [List.set_eq_take_cons_drop v
            (show q.tail < (q.buffer.take q.head).length by
              rw [List.length_take]; omega),
          List.take_take, List.drop_take]
        have h1 : min q.tail q.head = q.tail := by omega
        rw [h1]
      rw [e1, e2a, ← e2b]
      simp only [Queue.lin]
      rw [List.set_append, if_neg (by rw [List.length_drop]; omega), List.length_drop]
      congr 2
      omega
  have hlin2 : (Queue.mk (q.buffer.set q.tail v) q.head (q.nextpos q.tail)
      (q.length + 1) : Queue α).lin = q.lin.set q.length v := key
  have hlin3 : q.lin.set q.length v
      = q.model ++ v :: List.replicate (q.buffer.length - q.length - 1) none := by
    rw [hInv.lin_eq, List.set_append, if_neg (by rw [hml]; omega), hml,
      Nat.sub_self,
      show q.buffer.length - q.length = (q.buffer.length - q.length - 1) + 1
        from by omega,
      List.replicate_succ, List.set_cons_zero]
    rw [show q.buffer.length - q.length - 1 + 1 - 1 = q.buffer.length - q.length - 1
      from by omega]
  refine ⟨⟨?_, ?_, ?_, ?_, ?_, ?_⟩, ?_⟩
  · show ∃ k, (q.buffer.set q.tail v).length = 2 ^ k
    rw [List.length_set]
    exact hInv.pow
  · show q.head < (q.buffer.set q.tail v).length
    rw [List.length_set]
    exact hh
  · show q.nextpos q.tail < (q.buffer.set q.tail v).length
    rw [List.length_set, nextpos_eq hInv]
    exact Nat.mod_lt _ hC
  · show q.length + 1 ≤ (q.buffer.set q.tail v).length
    rw [List.length_set]
    omega
  · show q.nextpos q.tail = (q.head + (q.length + 1)) % (q.buffer.set q.tail v).length
    rw [List.length_set, nextpos_eq hInv, hInv.tail_eq, Nat.mod_add_mod]
    congr 1
  · show (Queue.mk (q.buffer.set q.tail v) q.head (q.nextpos q.tail)
        (q.length + 1) : Queue α).lin.drop (q.length + 1)
      = List.replicate ((q.buffer.set q.tail v).length - (q.length + 1)) none
    rw [hlin2, hlin3, List.drop_append_eq_append_drop,
      List.drop_of_length_le (by rw [hml]; omega), hml,
      show q.length + 1 - q.length = 0 + 1 from by omega,
      List.drop_succ_cons, List.drop_zero, List.nil_append, List.length_set]
    congr 1
  · show (Queue.mk (q.buffer.set q.tail v) q.head (q.nextpos q.tail)
        (q.length + 1) : Queue α).lin.take (q.length + 1) = q.model ++ [v]
    rw [hlin2, hlin3, List.take_append_eq_append_take,
      List.take_of_length_le (by rw [hml]; omega), hml,
      show q.length + 1 - q.length = 0 + 1 from by omega,
      List.take_succ_cons, List.take_zero]

/-- `Push` appends to the live contents, increments the length, and
keeps the invariant. -/
theorem push_spec {q : Queue α} (hInv : Inv q) (v : Option α) :
    Inv (q.Push v) ∧ (q.Push v).model = q.model ++ [v]
      ∧ (q.Push v).length = q.length + 1 := by
  have hC := hInv.cap_pos
  have hne : ¬ (q.buffer.isEmpty = true) := by
    rw [List.isEmpty_iff_length_eq_zero]
    omega
  by_cases hfull : q.length = q.buffer.length
  · obtain ⟨k, hk⟩ := hInv.pow
    have hpos : 0 < q.length := by omega
    have hlt : q.length < q.buffer.length * 2 := by omega
    have heven : q.buffer.length * 2 % 2 = 0 := by omega
    have hp2 : ∃ m, q.buffer.length * 2 = 2 ^ m := ⟨k + 1, by rw [hk, pow_succ]⟩
    obtain ⟨hI2, hm2, hc2, hl2⟩ := resize_norm hInv hpos hlt heven hp2
    have hlt2 : (q.resize (q.buffer.length * 2)).length
        < (q.resize (q.buffer.length * 2)).buffer.length := by
      rw [hl2, hc2]
      omega
    obtain ⟨hI3, hm3⟩ := write_spec hI2 hlt2 v
    simp only [Queue.Push, Queue.grow]
    rw [if_neg hne, if_pos hfull]
    refine ⟨hI3, by rw [hm3, hm2], ?_⟩
    show (q.resize (q.buffer.length * 2)).length + 1 = q.length + 1
    rw [hl2]
  · have hlt : q.length < q.buffer.length := Nat.lt_of_le_of_ne hInv.len_le hfull
    obtain ⟨hI3, hm3⟩ := write_spec hInv hlt v
    simp only [Queue.Push]
    rw [if_neg hne, if_neg hfull]
    exact ⟨hI3, hm3, rfl⟩

theorem pop_empty {q : Queue α} (h : q.length = 0) : q.Pop = (none, q) := by
  simp [Queue.Pop, h]

/-- Reading the head cell of a nonempty queue reads the front of the
live contents. -/
theorem peek_model {q : Queue α} (hInv : Inv q) (hpos : 0 < q.length) :
    q.buffer.getD q.head none = q.model.getD 0 none := by
  have hh := hInv.head_lt
  rw [List.getD_eq_getElem?_getD, List.getD_eq_getElem?_getD]
  have h1 : q.model[0]? = q.lin[0]? := by
    simp only [Queue.model]
    rw [List.getElem?_take, if_pos hpos]
  have h2 : q.lin[0]? = q.buffer[q.head]? := by
    simp only [Queue.lin]
    rw [List.getElem?_append, if_pos (by rw [List.length_drop]; omega),
      List.getElem?_drop, Nat.add_zero]
  rw [h1, h2]

/-- The state after the removal step of `Pop` (before any shrink): the
front of the live contents is gone and the invariant still holds. -/
theorem pop_mid {q : Queue α} (hInv : Inv q) (hpos : 0 < q.length) :
    Inv (Queue.mk (q.buffer.set q.head none) (q.nextpos q.head) q.tail
        (q.length - 1))
      ∧ (Queue.mk (q.buffer.set q.head none) (q.nextpos q.head) q.tail
          (q.length - 1)).model = q.model.drop 1 := by
  have hC := hInv.cap_pos
  have hh := hInv.head_lt
  have htl := hInv.tail_lt
  have hln := hInv.len_le
  have hml := hInv.model_length
  have key : (q.buffer.set q.head none).drop ((q.head + 1) % q.buffer.length)
        ++ (q.buffer.set q.head none).take ((q.head + 1) % q.buffer.length)
      = q.lin.drop 1 ++ [none] := by
    have hdrop1 : q.lin.drop 1
        = (q.buffer.drop q.head).drop 1 ++ q.buffer.take q.head := by
      simp only [Queue.lin]
      rw [List.drop_append_eq_append_drop, List.length_drop,
        show 1 - (q.buffer.length - q.head) = 0 from by omega, List.drop_zero]
    rcases Nat.lt_or_ge (q.head + 1) q.buffer.length with hA | hB
    · have hmod : (q.head + 1) % q.buffer.length = q.head + 1 := Nat.mod_eq_of_lt hA
      have e1 : (q.buffer.set q.head none).drop (q.head + 1)
          = q.buffer.drop (q.head + 1) := by
        rw [List.drop_set, if_pos (by omega)]
      have e2 : (q.buffer.set q.head none).take (q.head + 1)
          = q.buffer.take q.head ++ [none] := by
        rw [List.set_eq_take_cons_drop none hh, List.take_append_eq_append_take,
          List.take_take, List.length_take]
        have h1 : min (q.head + 1) q.head = q.head := by omega
        have h2 : min q.head q.buffer.length = q.head := by omega
        rw [h1, h2, show q.head + 1 - q.head = 0 + 1 from by omega,
          List.take_succ_cons, List.take_zero]
      rw [hmod, e1, e2, hdrop1, List.drop_drop, List.append_assoc]
    · have hBe : q.head + 1 = q.buffer.length := by omega
      have hmod : (q.head + 1) % q.buffer.length = 0 := by
        rw [hBe, Nat.mod_self]
      have e1 : (q.buffer.set q.head none)
          = q.buffer.take q.head ++ [none] := by
        rw [List.set_eq_take_cons_drop none hh,
          List.drop_of_length_le (by omega)]
      rw [hmod, List.drop_zero, List.take_zero, List.append_nil, e1, hdrop1,
        List.drop_drop, List.drop_of_length_le (by omega), List.nil_append]
  have hdrop2 : q.lin.drop 1
      = q.model.drop 1 ++ List.replicate (q.buffer.length - q.length) none := by
    rw [hInv.lin_eq, List.drop_append_eq_append_drop,
      show 1 - q.model.length = 0 from by omega, List.drop_zero]
  have hlin1 : (Queue.mk (q.buffer.set q.head none) (q.nextpos q.head) q.tail
        (q.length - 1) : Queue α).lin
      = q.model.drop 1 ++ List.replicate (q.buffer.length - q.length + 1) none := by
    show (q.buffer.set q.head none).drop (q.nextpos q.head)
        ++ (q.buffer.set q.head none).take (q.nextpos q.head) = _
    rw [nextpos_eq hInv, key, hdrop2, List.append_assoc, List.replicate_add]
    rfl
  have hmd1 : (q.model.drop 1).length = q.length - 1 := by
    rw [List.length_drop, hml]
  refine ⟨⟨?_, ?_, ?_, ?_, ?_, ?_⟩, ?_⟩
  · show ∃ k, (q.buffer.set q.head none).length = 2 ^ k
    rw [List.length_set]
    exact hInv.pow
  · show q.nextpos q.head < (q.buffer.set q.head none).length
    rw [List.length_set, nextpos_eq hInv]
    exact Nat.mod_lt _ hC
  · show q.tail < (q.buffer.set q.head none).length
    rw [List.length_set]
    exact htl
  · show q.length - 1 ≤ (q.buffer.set q.head none).length
    rw [List.length_set]
    omega
  · show q.tail = (q.nextpos q.head + (q.length - 1)) % (q.buffer.set q.head none).length
    rw [List.length_set, nextpos_eq hInv, Nat.mod_add_mod,
      show q.head + 1 + (q.length - 1) = q.head + q.length from by omega,
      ← hInv.tail_eq]
  · show (Queue.mk (q.buffer.set q.head none) (q.nextpos q.head) q.tail
        (q.length - 1) : Queue α).lin.drop (q.length - 1)
      = List.replicate ((q.buffer.set q.head none).length - (q.length - 1)) none
    rw [hlin1, List.drop_append_eq_append_drop,
      List.drop_of_length_le (Nat.le_of_eq hmd1), hmd1, Nat.sub_self,
      List.drop_zero, List.nil_append, List.length_set]
    congr 1
    omega
  · show (Queue.mk (q.buffer.set q.head none) (q.nextpos q.head) q.tail
        (q.length - 1) : Queue α).lin.take (q.length - 1) = q.model.drop 1
    rw [hlin1]
    exact List.take_left' hmd1

/-- Splitting a power of two at least 8 in half gives an even power of
two. -/
theorem pow_two_facts {k C : Nat} (hk : C = 2 ^ k) (h8 : 8 ≤ C) :
    C / 2 % 2 = 0 ∧ ∃ m, C / 2 = 2 ^ m := by
  have hk3 : 3 ≤ k := by
    by_contra hcon
    push_neg at hcon
    interval_cases k <;> omega
  obtain ⟨m, rfl⟩ : ∃ m, k = m + 1 := ⟨k - 1, by omega⟩
  rw [pow_succ] at hk
  have hdiv : C / 2 = 2 ^ m := by
    rw [hk]
    exact Nat.mul_div_cancel _ (by omega)
  refine ⟨?_, m, hdiv⟩
  obtain ⟨m2, rfl⟩ : ∃ m2, m = m2 + 1 := ⟨m - 1, by omega⟩
  rw [hdiv, pow_succ]
  omega

/-- Full description of `Pop` on a nonempty queue: it returns the front
of the live contents, drops it, and shrinks the capacity exactly under
the `excessCapacity` condition. -/
theorem pop_spec {q : Queue α} (hInv : Inv q) (hpos : 0 < q.length) :
    Inv q.Pop.2
      ∧ q.Pop.1 = q.model.getD 0 none
      ∧ q.Pop.2.model = q.model.drop 1
      ∧ q.Pop.2.length = q.length - 1
      ∧ q.Pop.2.buffer.length
          = (if 1 < q.length ∧ q.length - 1 < q.buffer.length / 4
             then q.buffer.length / 2 else q.buffer.length) := by
  have hC := hInv.cap_pos
  obtain ⟨hI1, hm1⟩ := pop_mid hInv hpos
  simp only [Queue.Pop]
  rw [if_neg (show ¬ q.length = 0 by omega)]
  by_cases hex : 1 < q.length ∧ q.length - 1 < q.buffer.length / 4
  · have hexT : (Queue.mk (q.buffer.set q.head none) (q.nextpos q.head) q.tail
        (q.length - 1) : Queue α).excessCapacity = true := by
      simp only [Queue.excessCapacity, List.length_set, Bool.and_eq_true,
        decide_eq_true_eq]
      exact ⟨by omega, hex.2⟩
    rw [if_pos hexT]
    simp only [Queue.shrink]
    rw [show (Queue.mk (q.buffer.set q.head none) (q.nextpos q.head) q.tail
        (q.length - 1) : Queue α).buffer.length = q.buffer.length
      from List.length_set _ _ _]
    have h8 : 8 ≤ q.buffer.length := by omega
    obtain ⟨k, hk⟩ := hInv.pow
    obtain ⟨heven, hp2⟩ := pow_two_facts hk h8
    obtain ⟨hI2, hm2, hc2, hl2⟩ := resize_norm hI1
      (show 0 < q.length - 1 by omega)
      (show q.length - 1 < q.buffer.length / 2 by omega) heven hp2
    refine ⟨hI2, peek_model hInv hpos, ?_, ?_, ?_⟩
    · rw [hm2, hm1]
    · rw [hl2]
    · rw [hc2, if_pos hex]
  · have hexF : ¬ ((Queue.mk (q.buffer.set q.head none) (q.nextpos q.head) q.tail
        (q.length - 1) : Queue α).excessCapacity = true) := by
      simp only [Queue.excessCapacity, List.length_set, Bool.and_eq_true,
        decide_eq_true_eq]
      omega
    rw [if_neg hexF]
    refine ⟨hI1, peek_model hInv hpos, hm1, rfl, ?_⟩
    rw [if_neg hex]
    exact List.length_set _ _ _

/-- Every reachable queue state satisfies the invariant. -/
theorem reachable_inv {q : Queue α} (h : Reachable q) : Inv q := by
  induction h with
  | init => exact inv_new
  | push v _ ih => exact (push_spec ih v).1
  | @pop q2 _ ih =>
    by_cases h0 : q2.length = 0
    · rw [pop_empty h0]
      exact ih
    · exact (pop_spec ih (by omega)).1
  | clear _ ih =>
    rw [clear_eq]
    exact inv_new

/-- Simulation: a queue satisfying the invariant and its list model
produce identical observable traces on any operation sequence. -/
theorem sim {q : Queue α} {l : List (Option α)} (hInv : Inv q) (hm : q.model = l)
    (ops : List (Op α)) : obsQ q ops = obsM l ops := by
  induction ops generalizing q l with
  | nil => rfl
  | cons op ops ih =>
    cases op with
    | push v =>
      obtain ⟨hI, hm2, hl2⟩ := push_spec hInv v
      simp only [obsQ, obsM]
      rw [show (q.Push v).Length = (modelPush l v).length by
        show (q.Push v).length = (l ++ [v]).length
        rw [hl2, List.length_append, ← hm, hInv.model_length]
        rfl]
      exact congrArg (List.cons _) (ih hI (by rw [hm2, hm]; rfl))
    | pop =>
      by_cases h0 : q.length = 0
      · have hl0 : l = [] := by
          rw [← hm, ← List.length_eq_zero, hInv.model_length]
          exact h0
        subst hl0
        simp only [obsQ, obsM, pop_empty h0, modelPop]
        rw [show q.Length = (0 : Nat) from h0]
        exact congrArg (List.cons _) (ih hInv hm)
      · obtain ⟨hI, hr, hm2, hl2, _⟩ := pop_spec hInv (by omega)
        have hlen : l.length = q.length := by rw [← hm, hInv.model_length]
        cases l with
        | nil =>
          rw [List.length_nil] at hlen
          omega
        | cons x xs =>
          simp only [obsQ, obsM, modelPop]
          have h1 : q.Pop.1 = x := by rw [hr, hm, List.getD_cons_zero]
          have h2 : q.Pop.2.model = xs := by
            rw [hm2, hm, List.drop_succ_cons, List.drop_zero]
          have h3 : q.Pop.2.Length = xs.length := by
            show q.Pop.2.length = xs.length
            rw [List.length_cons] at hlen
            rw [hl2]
            omega
          rw [h1, h3]
          exact congrArg (List.cons _) (ih hI h2)
    | clear =>
      simp only [obsQ, obsM, clear_eq]
      exact congrArg (List.cons _) (ih inv_new model_new)

/-- Pushing a list of values appends it to the live contents. -/
theorem pushAll_spec (vs : List (Option α)) {q : Queue α} (hInv : Inv q) :
    Inv (pushAll q vs) ∧ (pushAll q vs).model = q.model ++ vs := by
  induction vs generalizing q with
  | nil => exact ⟨hInv, by simp [pushAll]⟩
  | cons v vs ih =>
    obtain ⟨hI, hm, _⟩ := push_spec hInv v
    obtain ⟨hI2, hm2⟩ := ih hI
    refine ⟨hI2, ?_⟩
    show (pushAll (q.Push v) vs).model = q.model ++ v :: vs
    rw [hm2, hm, List.append_assoc, List.singleton_append]

/-- Popping exactly `length` times returns the whole live contents. -/
theorem popN_model {n : Nat} : ∀ {q : Queue α}, Inv q → q.model.length = n →
    (popN q n).1 = q.model := by
  induction n with
  | zero =>
    intro q _ h0
    rw [List.length_eq_zero.mp h0]
    rfl
  | succ n ih =>
    intro q hInv hlen
    have hpos : 0 < q.length := by
      rw [← hInv.model_length]
      omega
    obtain ⟨hI, hr, hm2, _, _⟩ := pop_spec hInv hpos
    cases hmq : q.model with
    | nil =>
      rw [hmq, List.length_nil] at hlen
      omega
    | cons x xs =>
      have h1 : q.Pop.1 = x := by rw [hr, hmq, List.getD_cons_zero]
      have h2 : q.Pop.2.model = xs := by
        rw [hm2, hmq, List.drop_succ_cons, List.drop_zero]
      have hxl : q.Pop.2.model.length = n := by
        rw [h2]
        rw [hmq, List.length_cons] at hlen
        omega
      show q.Pop.1 :: (popN q.Pop.2 n).1 = x :: xs
      rw [h1, ih hI hxl, h2]

/-- The buffer cell at relinearized position `i`. -/
theorem lin_getElem {q : Queue α} (hInv : Inv q) {i : Nat}
    (hi : i < q.buffer.length) :
    q.lin[i]? = q.buffer[(q.head + i) % q.buffer.length]? := by
  have hh := hInv.head_lt
  simp only [Queue.lin]
  rcases Nat.lt_or_ge i (q.buffer.length - q.head) with h1 | h1
  · rw [List.getElem?_append, if_pos (by rw [List.length_drop]; omega),
      List.getElem?_drop, Nat.mod_eq_of_lt (by omega)]
  · rw [List.getElem?_append, if_neg (by rw [List.length_drop]; omega),
      List.length_drop, List.getElem?_take, if_pos (by omega)]
    congr 1
    rw [Nat.mod_eq_sub_mod (by omega), Nat.mod_eq_of_lt (by omega)]
    omega

/-- Every buffer slot outside the live range of an invariant-satisfying
queue holds `nil`. -/
theorem dead_slot {q : Queue α} (hInv : Inv q) {j : Nat}
    (hj : j < q.buffer.length)
    (hnl : ∀ i, i < q.length → j ≠ (q.head + i) % q.buffer.length) :
    q.buffer.getD j none = none := by
  have hh := hInv.head_lt
  have hml := hInv.model_length
  have hln := hInv.len_le
  obtain ⟨p, hplt, hpj⟩ : ∃ p, p < q.buffer.length
      ∧ (q.head + p) % q.buffer.length = j := by
    by_cases hcase : q.head ≤ j
    · exact ⟨j - q.head, by omega,
        by rw [Nat.add_sub_cancel' hcase, Nat.mod_eq_of_lt hj]⟩
    · refine ⟨j + (q.buffer.length - q.head), by omega, ?_⟩
      rw [show q.head + (j + (q.buffer.length - q.head)) = j + q.buffer.length
        from by omega, Nat.add_mod_right, Nat.mod_eq_of_lt hj]
  have hpl : q.length ≤ p := by
    by_contra hcon
    push_neg at hcon
    exact hnl p hcon hpj.symm
  rw [List.getD_eq_getElem?_getD, ← hpj, ← lin_getElem hInv hplt,
    hInv.lin_eq, List.getElem?_append, if_neg (by omega),
    List.getElem?_replicate, if_pos (by omega)]
  rfl

/-- The `String` loop renders exactly the visited cells joined by
`" | "`. -/
theorem stringAux_sepBy (f : α → String) (q : Queue α) :
    ∀ (m j : Nat), q.stringAux f j m = sepBy ((cells q j m).map (cellStr f)) := by
  intro m
  induction m with
  | zero => intro j; rfl
  | succ m ih =>
    intro j
    cases m with
    | zero =>
      show cellStr f (q.buffer.getD j none) ++ (if 0 < 0 then " | " else "")
          ++ q.stringAux f (q.nextpos j) 0 = _
      rw [if_neg (by omega)]
      show cellStr f (q.buffer.getD j none) ++ "" ++ "" = _
      rw [String.append_empty, String.append_empty]
      rfl
    | succ m2 =>
      show cellStr f (q.buffer.getD j none) ++ (if 0 < m2 + 1 then " | " else "")
          ++ q.stringAux f (q.nextpos j) (m2 + 1) = _
      rw [if_pos (by omega), ih (q.nextpos j)]
      show _ = sepBy (cellStr f (q.buffer.getD j none)
        :: (cells q (q.nextpos j) (m2 + 1)).map (cellStr f))
      rw [show cells q (q.nextpos j) (m2 + 1)
          = q.buffer.getD (q.nextpos j) none
            :: cells q (q.nextpos (q.nextpos j)) m2 from rfl]
      rw [List.map_cons, sepBy, String.append_assoc]

/-- The cells visited starting `p` positions past `head` are the
relinearized buffer from position `p` on. -/
theorem cells_lin {q : Queue α} (hInv : Inv q) :
    ∀ (m p : Nat), p + m ≤ q.buffer.length →
      cells q ((q.head + p) % q.buffer.length) m = (q.lin.drop p).take m := by
  have hC := hInv.cap_pos
  have hlin : q.lin.length = q.buffer.length := lin_length (Nat.le_of_lt hInv.head_lt)
  intro m
  induction m with
  | zero => intro p _; rfl
  | succ m ih =>
    intro p hpm
    have hp : p < q.buffer.length := by omega
    have hp2 : p < q.lin.length := by omega
    have hget : q.buffer.getD ((q.head + p) % q.buffer.length) none
        = q.lin[p] := by
      rw [List.getD_eq_getElem?_getD, ← lin_getElem hInv hp,
        List.getElem?_eq_getElem hp2]
      rfl
    have hnext : q.nextpos ((q.head + p) % q.buffer.length)
        = (q.head + (p + 1)) % q.buffer.length := by
      rw [nextpos_eq hInv, Nat.mod_add_mod]
      congr 1
    show q.buffer.getD ((q.head + p) % q.buffer.length) none
        :: cells q (q.nextpos ((q.head + p) % q.buffer.length)) m = _
    rw [hget, hnext, ih (p + 1) (by omega),
      List.drop_eq_getElem_cons hp2, List.take_succ_cons]

/-- `String` renders the live contents joined by `" | "`. -/
theorem toString_model (f : α → String) {q : Queue α} (hInv : Inv q) :
    q.toString f = sepBy (q.model.map (cellStr f)) := by
  have hcells : cells q q.head q.length = q.model := by
    have h0 : (q.head + 0) % q.buffer.length = q.head := by
      rw [Nat.add_zero, Nat.mod_eq_of_lt hInv.head_lt]
    have := cells_lin hInv q.length 0 (by have := hInv.len_le; omega)
    rw [h0, List.drop_zero] at this
    exact this
  rw [Queue.toString, stringAux_sepBy, hcells]

/-- `Push` doubles the capacity exactly when the queue is full, and
leaves it unchanged otherwise. -/
theorem push_capacity {q : Queue α} (hInv : Inv q) (v : Option α) :
    (q.Push v).buffer.length
      = (if q.length = q.buffer.length then q.buffer.length * 2
         else q.buffer.length) := by
  have hC := hInv.cap_pos
  have hne : ¬ (q.buffer.isEmpty = true) := by
    rw [List.isEmpty_iff_length_eq_zero]
    omega
  by_cases hfull : q.length = q.buffer.length
  · obtain ⟨k, hk⟩ := hInv.pow
    have hpos : 0 < q.length := by omega
    have hlt : q.length < q.buffer.length * 2 := by omega
    have heven : q.buffer.length * 2 % 2 = 0 := by omega
    obtain ⟨hI2, hm2, hc2, hl2⟩ := resize_norm hInv hpos hlt heven
      ⟨k + 1, by rw [hk, pow_succ]⟩
    simp only [Queue.Push, Queue.grow]
    rw [if_neg hne, if_pos hfull]
    show ((q.resize (q.buffer.length * 2)).buffer.set
        (q.resize (q.buffer.length * 2)).tail v).length = _
    rw [List.length_set, hc2, if_pos hfull]
  · simp only [Queue.Push]
    rw [if_neg hne, if_neg hfull]
    show (q.buffer.set q.tail v).length = _
    rw [List.length_set, if_neg hfull]

/-- C1: over every finite sequence of Push/Pop/Clear operations from
`NewQueue`, the observable pop results and lengths coincide with those of
the unbounded list-based FIFO reference model; in particular pushing
`v1..vn` and then popping `n` times yields `v1, ..., vn` in order,
regardless of the resizes in between. -/
theorem c1_fifo_refinement :
    (∀ (β : Type) (ops : List (Op β)), obsQ NewQueue ops = obsM [] ops)
      ∧ (∀ (β : Type) (vs : List (Option β)),
          (popN (pushAll NewQueue vs) vs.length).1 = vs) := by
  constructor
  · intro β ops
    exact sim inv_new rfl ops
  · intro β vs
    obtain ⟨hI, hm⟩ := pushAll_spec vs inv_new
    have hm2 : (pushAll NewQueue vs).model = vs := by
      rw [hm]
      rfl
    rw [popN_model hI (by rw [hm2]), hm2]

/-- C2: every queue reachable from `NewQueue` by Push/Pop/Clear has a
buffer whose length is a power of two, and at least 1. -/
theorem c2_capacity_pow2 {β : Type} {q : Queue β} (h : Reachable q) :
    (∃ k, q.buffer.length = 2 ^ k) ∧ 1 ≤ q.buffer.length :=
  ⟨(reachable_inv h).pow, (reachable_inv h).cap_pos⟩

theorem c2_capacity_pow2_witness :
    Reachable (NewQueue : Queue Nat)
      ∧ ((∃ k, (NewQueue : Queue Nat).buffer.length = 2 ^ k)
          ∧ 1 ≤ (NewQueue : Queue Nat).buffer.length) :=
  ⟨Reachable.init, c2_capacity_pow2 Reachable.init⟩

/-- C3: every reachable queue satisfies
`tail = (head + length) % C`, `head < C`, `tail < C` and `length ≤ C`
(the lower bounds `0 ≤ _` are inherent in the `Nat` embedding of the
non-negative reachable values). -/
theorem c3_index_invariant {β : Type} {q : Queue β} (h : Reachable q) :
    q.tail = (q.head + q.length) % q.buffer.length
      ∧ q.head < q.buffer.length
      ∧ q.tail < q.buffer.length
      ∧ q.length ≤ q.buffer.length :=
  ⟨(reachable_inv h).tail_eq, (reachable_inv h).head_lt,
    (reachable_inv h).tail_lt, (reachable_inv h).len_le⟩

theorem c3_index_invariant_witness :
    Reachable (NewQueue : Queue Nat)
      ∧ ((NewQueue : Queue Nat).tail
            = ((NewQueue : Queue Nat).head + (NewQueue : Queue Nat).length)
                % (NewQueue : Queue Nat).buffer.length
          ∧ (NewQueue : Queue Nat).head < (NewQueue : Queue Nat).buffer.length
          ∧ (NewQueue : Queue Nat).tail < (NewQueue : Queue Nat).buffer.length
          ∧ (NewQueue : Queue Nat).length ≤ (NewQueue : Queue Nat).buffer.length) :=
  ⟨Reachable.init, c3_index_invariant Reachable.init⟩

/-- C4: during `Push` on a reachable queue, a grow happens exactly when
`length` equals the capacity, the capacity after the grow is exactly
double the one before (still a power of two), and `Push` never resizes
otherwise. -/
theorem c4_grow_exact {β : Type} {q : Queue β} (h : Reachable q) (v : Option β) :
    (q.length = q.buffer.length →
        (q.Push v).buffer.length = 2 * q.buffer.length
          ∧ ∃ k, (q.Push v).buffer.length = 2 ^ k)
      ∧ (q.length ≠ q.buffer.length →
          (q.Push v).buffer.length = q.buffer.length) := by
  have hInv := reachable_inv h
  have hc := push_capacity hInv v
  constructor
  · intro hfull
    rw [hc, if_pos hfull]
    obtain ⟨k, hk⟩ := hInv.pow
    exact ⟨by omega, k + 1, by rw [hk, ← pow_succ]⟩
  · intro hfull
    rw [hc, if_neg hfull]

theorem c4_grow_exact_witness :
    ((((NewQueue : Queue Nat).Push (some 0)).Push (some 1)).buffer.length
        = 2 * ((NewQueue : Queue Nat).Push (some 0)).buffer.length)
      ∧ ∃ k, (((NewQueue : Queue Nat).Push (some 0)).Push (some 1)).buffer.length
          = 2 ^ k :=
  (c4_grow_exact (Reachable.push (some 0) Reachable.init) (some 1)).1 rfl

/-- C5: on a reachable queue, `Pop` shrinks exactly when after the
removal the queue is nonempty and its length is below a quarter of the
capacity, in which case the capacity halves; otherwise (including
popping down to empty, and popping an empty queue) the capacity is
unchanged, and it never drops below 1. -/
theorem c5_shrink_exact {β : Type} {q : Queue β} (h : Reachable q) :
    1 ≤ q.buffer.length
      ∧ q.Pop.2.buffer.length
          = (if 1 < q.length ∧ q.length - 1 < q.buffer.length / 4
             then q.buffer.length / 2 else q.buffer.length) := by
  have hInv := reachable_inv h
  refine ⟨hInv.cap_pos, ?_⟩
  by_cases h0 : q.length = 0
  · rw [pop_empty h0, if_neg (by omega)]
  · exact (pop_spec hInv (by omega)).2.2.2.2

theorem c5_shrink_exact_witness :
    Reachable (NewQueue : Queue Nat)
      ∧ (1 ≤ (NewQueue : Queue Nat).buffer.length
          ∧ (NewQueue : Queue Nat).Pop.2.buffer.length
              = (if 1 < (NewQueue : Queue Nat).length
                    ∧ (NewQueue : Queue Nat).length - 1
                        < (NewQueue : Queue Nat).buffer.length / 4
                 then (NewQueue : Queue Nat).buffer.length / 2
                 else (NewQueue : Queue Nat).buffer.length)) :=
  ⟨Reachable.init, c5_shrink_exact Reachable.init⟩

/-- C6: `Pop` on any queue state with `length = 0` returns the absence
indicator and leaves the whole state unchanged. -/
theorem c6_pop_empty_noop {β : Type} {q : Queue β} (h : q.length = 0) :
    q.Pop.1 = none ∧ q.Pop.2 = q := by
  rw [pop_empty h]
  exact ⟨rfl, rfl⟩

theorem c6_pop_empty_noop_witness :
    (NewQueue : Queue Nat).length = 0
      ∧ ((NewQueue : Queue Nat).Pop.1 = none
          ∧ (NewQueue : Queue Nat).Pop.2 = NewQueue) :=
  ⟨rfl, c6_pop_empty_noop rfl⟩

/-- C7: a freshly constructed queue has length 0 and both `Pop` and
`Peek` on it return the absence indicator. -/
theorem c7_new_queue_empty (β : Type) :
    (NewQueue : Queue β).Length = 0
      ∧ (NewQueue : Queue β).Pop.1 = none
      ∧ (NewQueue : Queue β).Peek = none :=
  ⟨rfl, rfl, rfl⟩

/-- C8: `String` renders the live entries from head to tail joined by
the literal `" | "` with no leading or trailing delimiter, empty for an
empty queue; in particular after pushing A, B, popping once, and pushing
C, D it renders exactly `"B | C | D"`. -/
theorem c8_toString_render :
    (∀ (β : Type) (f : β → String) (q : Queue β), Reachable q →
        q.toString f = sepBy (q.model.map (cellStr f))
          ∧ (q.length = 0 → q.toString f = ""))
      ∧ ((((((NewQueue : Queue String).Push (some "A")).Push
          (some "B")).Pop.2.Push (some "C")).Push (some "D")).toString id
            = "B | C | D") := by
  constructor
  · intro β f q h
    have hInv := reachable_inv h
    refine ⟨toString_model f hInv, ?_⟩
    intro h0
    rw [toString_model f hInv]
    have hm0 : q.model = [] := by
      rw [← List.length_eq_zero, hInv.model_length]
      exact h0
    rw [hm0]
    rfl
  · decide

theorem c8_toString_render_witness :
    Reachable (NewQueue : Queue String)
      ∧ ((NewQueue : Queue String).toString id
            = sepBy ((NewQueue : Queue String).model.map (cellStr id))
          ∧ ((NewQueue : Queue String).length = 0 →
              (NewQueue : Queue String).toString id = "")) :=
  ⟨Reachable.init, c8_toString_render.1 String id NewQueue Reachable.init⟩

/-- C9: `Clear` on any queue state resets it to the initial state: a
fresh one-slot `nil` buffer, `head = tail = length = 0`, after which
`Pop` and `Peek` return absence. -/
theorem c9_clear_resets {β : Type} (q : Queue β) :
    q.Clear = NewQueue
      ∧ q.Clear.Length = 0 ∧ q.Clear.head = 0 ∧ q.Clear.tail = 0
      ∧ q.Clear.buffer = List.replicate 1 none
      ∧ q.Clear.Pop.1 = none ∧ q.Clear.Peek = none :=
  ⟨rfl, rfl, rfl, rfl, rfl, rfl, rfl⟩

/-- C10: in every reachable queue, every buffer slot outside the live
range holds `nil`; consequently `Peek` on a reachable empty queue
returns `nil` even though it reads `buffer[head]` unconditionally. -/
theorem c10_dead_slots_nil {β : Type} {q : Queue β} (h : Reachable q) :
    (∀ j, j < q.buffer.length →
        (∀ i, i < q.length → j ≠ (q.head + i) % q.buffer.length) →
        q.buffer.getD j none = none)
      ∧ (q.length = 0 → q.Peek = none) := by
  have hInv := reachable_inv h
  constructor
  · intro j hj hnl
    exact dead_slot hInv hj hnl
  · intro h0
    show q.buffer.getD q.head none = none
    exact dead_slot hInv hInv.head_lt (fun i hi => by omega)

theorem c10_dead_slots_nil_witness :
    Reachable (NewQueue : Queue Nat)
      ∧ ((NewQueue : Queue Nat).buffer.getD 0 none = none
          ∧ (NewQueue : Queue Nat).Peek = none) :=
  ⟨Reachable.init,
    (c10_dead_slots_nil Reachable.init).1 0 (by decide)
      (fun i hi => absurd hi (Nat.not_lt_zero i)),
    (c10_dead_slots_nil Reachable.init).2 rfl⟩

example : (NewQueue : Queue Nat).buffer.length = 1 := rfl
example : ((NewQueue : Queue Nat).Push (some 5)).model = [some 5] := rfl
example :
    (popN (pushAll (NewQueue : Queue Nat) [some 1, some 2, some 3]) 3).1 =
      [some 1, some 2, some 3] := by decide
example :
    (pushAll (NewQueue : Queue Nat) [some 1, some 2, some 3, some 4, some 5]).buffer.length = 8 := by
  decide
example :
    ((((((NewQueue : Queue String).Push (some "A")).Push
        (some "B")).Pop.2.Push (some "C")).Push (some "D")).toString id) = "B | C | D" := by
  decide

end RingQueue
